import Mathlib

/- Shallow embedding of the coordinate-geometry core of opencascade-rs
   (crates/opencascade/src/workplane.rs and crates/opencascade/src/lib.rs).
   f64 arithmetic is idealised as real arithmetic.  The nalgebra vector and
   quaternion operations used by the source (componentwise add/neg, dot,
   cross, Hamilton product, conjugate, rotation of a vector by a unit
   quaternion, UnitQuaternion::rotation_between) are translated
   component-for-component from their nalgebra definitions.  Rust panics
   (todo!, Option::unwrap on None) are modelled as the value none. -/

/-- A 3-vector, nalgebra Vector3 over f64 (Point3 shares the representation);
idealised over the reals. -/
@[ext]
structure Vec3 where
  x : ℝ
  y : ℝ
  z : ℝ

/-- nalgebra Vector3::zeros(). -/
def Vec3.zero : Vec3 := ⟨0, 0, 0⟩

/-- Componentwise vector addition (also Point3 + Vector3 in nalgebra). -/
def Vec3.add (a b : Vec3) : Vec3 := ⟨a.x + b.x, a.y + b.y, a.z + b.z⟩

/-- Componentwise vector negation. -/
def Vec3.neg (a : Vec3) : Vec3 := ⟨-a.x, -a.y, -a.z⟩

/-- Scalar multiplication of a vector. -/
def Vec3.smul (r : ℝ) (a : Vec3) : Vec3 := ⟨r * a.x, r * a.y, r * a.z⟩

instance : Zero Vec3 := ⟨Vec3.zero⟩

instance : Add Vec3 := ⟨Vec3.add⟩

instance : Neg Vec3 := ⟨Vec3.neg⟩

instance : SMul ℝ Vec3 := ⟨Vec3.smul⟩

/-- Euclidean dot product. -/
def Vec3.dot (a b : Vec3) : ℝ := a.x * b.x + a.y * b.y + a.z * b.z

/-- Cross product, as in nalgebra. -/
def Vec3.cross (a b : Vec3) : Vec3 :=
  ⟨a.y * b.z - a.z * b.y, a.z * b.x - a.x * b.z, a.x * b.y - a.y * b.x⟩

/-- A quaternion w + x i + y j + z k, nalgebra Quaternion over f64,
idealised over the reals.  The source stores UnitQuaternion values; unit
norm appears as an explicit hypothesis on the theorems. -/
@[ext]
structure Quat where
  w : ℝ
  x : ℝ
  y : ℝ
  z : ℝ

/-- nalgebra UnitQuaternion::identity(). -/
def Quat.id : Quat := ⟨1, 0, 0, 0⟩

/-- Hamilton product, as in nalgebra Quaternion multiplication
(and UnitQuaternion * UnitQuaternion). -/
def Quat.mul (p q : Quat) : Quat :=
  ⟨p.w * q.w - p.x * q.x - p.y * q.y - p.z * q.z,
   p.w * q.x + p.x * q.w + p.y * q.z - p.z * q.y,
   p.w * q.y - p.x * q.z + p.y * q.w + p.z * q.x,
   p.w * q.z + p.x * q.y - p.y * q.x + p.z * q.w⟩

/-- Quaternion conjugate; nalgebra UnitQuaternion::inverse() is the
conjugate of the underlying unit quaternion. -/
def Quat.conj (q : Quat) : Quat := ⟨q.w, -q.x, -q.y, -q.z⟩

/-- Squared norm of a quaternion. -/
def Quat.normSq (q : Quat) : ℝ := q.w ^ 2 + q.x ^ 2 + q.y ^ 2 + q.z ^ 2

/-- The vector (imaginary) part of a quaternion. -/
def Quat.vec (q : Quat) : Vec3 := ⟨q.x, q.y, q.z⟩

/-- The quaternion with zero scalar part and the given vector part. -/
def Quat.pure (v : Vec3) : Quat := ⟨0, v.x, v.y, v.z⟩

/-- Scalar multiplication of a quaternion. -/
def Quat.smul (r : ℝ) (q : Quat) : Quat := ⟨r * q.w, r * q.x, r * q.y, r * q.z⟩

/-- Normalisation of a quaternion to unit norm. -/
noncomputable def Quat.unitize (q : Quat) : Quat :=
  Quat.smul (Real.sqrt q.normSq)⁻¹ q

/-- Application of a quaternion to a vector, exactly as nalgebra implements
UnitQuaternion * Vector3 (and * Point3):
t = 2 (q.vector x v); result = t * q.scalar + q.vector x t + v.
For a unit quaternion this is the rotation q v q*. -/
def Quat.rotate (q : Quat) (v : Vec3) : Vec3 :=
  let t : Vec3 := (2 : ℝ) • (q.vec.cross v)
  q.w • t + q.vec.cross t + v

/-- nalgebra UnitQuaternion::rotation_between (via scaled_rotation_between
with factor 1, inputs already unit vectors).  Branch structure mirrors the
nalgebra source: if the cross product is (idealised: exactly) zero the
vectors are parallel - antiparallel (dot < 0) has no shortest-arc rotation
(None), parallel gives the identity; otherwise the shortest-arc rotation
about axis a x b is returned.  from_axis_angle(axis, acos(a.dot b)) equals,
for unit a and b, the normalisation of the quaternion
(1 + a.dot b, a x b). -/
noncomputable def rotation_between (a b : Vec3) : Option Quat :=
  let c := a.cross b
  if c.x = 0 ∧ c.y = 0 ∧ c.z = 0 then
    if a.dot b < 0 then none else some Quat.id
  else
    if a.dot b ≤ -1 then none
    else if 1 ≤ a.dot b then some Quat.id
    else some (Quat.unitize ⟨1 + a.dot b, c.x, c.y, c.z⟩)

/-- Source constant X_NORMAL = (1,0,0). -/
def X_NORMAL : Vec3 := ⟨1, 0, 0⟩

/-- Source constant Y_NORMAL = (0,1,0). -/
def Y_NORMAL : Vec3 := ⟨0, 1, 0⟩

/-- Source constant Z_NORMAL = (0,0,1). -/
def Z_NORMAL : Vec3 := ⟨0, 0, 1⟩

/-- Source constant BASE_NORMAL = Z_NORMAL. -/
def BASE_NORMAL : Vec3 := Z_NORMAL

/-- The lazily-initialised INTER_QUAT constant:
UnitQuaternion::rotation_between(&Z_NORMAL, &X_NORMAL).unwrap().
The unwrap is modelled by getD (the rotation exists, proved below). -/
noncomputable def INTER_QUAT : Quat :=
  (rotation_between Z_NORMAL X_NORMAL).getD Quat.id

/-- TandR: translation + rotation rigid transform with an inversion flag
(crates/opencascade/src/workplane.rs, struct TandR). -/
structure TandR where
  translation : Vec3
  rotation_quat : Quat
  inverse : Bool

/-- TandR::new. -/
def TandR.new (translation : Vec3) (rotation_quat : Quat) : TandR :=
  ⟨translation, rotation_quat, false⟩

/-- TandR::noop: zero translation, identity rotation. -/
def TandR.noop : TandR := ⟨Vec3.zero, Quat.id, false⟩

/-- TandR::from_rotation_between.  On the antiparallel (None) case the code
rotates a through INTER_QUAT and unwraps a second rotation_between; that
unwrap panics when the second attempt is again degenerate, modelled here
as none. -/
noncomputable def TandR.from_rotation_between (a b : Vec3) : Option TandR :=
  match rotation_between a b with
  | some quat => some ⟨Vec3.zero, quat, false⟩
  | none =>
      let quat_1 := INTER_QUAT
      let inter_norm := quat_1.rotate a
      match rotation_between inter_norm b with
      | some quat_2 => some ⟨Vec3.zero, quat_2.mul quat_1, false⟩
      | none => none

/-- TandR::transform_point: rotation then translation, or translation then
rotation when the inverse flag is set. -/
def TandR.transform_point (self : TandR) (point : Vec3) : Vec3 :=
  if self.inverse then
    self.rotation_quat.rotate (point + self.translation)
  else
    self.rotation_quat.rotate point + self.translation

/-- TandR::inverse (method; primed to avoid clashing with the field of the
same name): negate translation, conjugate rotation, toggle flag. -/
def TandR.inverse' (self : TandR) : TandR :=
  ⟨-self.translation, self.rotation_quat.conj, !self.inverse⟩

/-- TandR::transform_tandr (crates/opencascade/src/lib.rs): compose other
into self's frame, keeping other's inverse flag. -/
def TandR.transform_tandr (self : TandR) (tandr : TandR) : TandR :=
  ⟨self.translation + self.rotation_quat.rotate tandr.translation,
   self.rotation_quat.mul tandr.rotation_quat,
   tandr.inverse⟩

/-- TandR::rotate_norm: normals transform by rotation only. -/
def TandR.rotate_norm (self : TandR) (normal : Vec3) : Vec3 :=
  self.rotation_quat.rotate normal

/-- The Plane enum. -/
inductive Plane where
  | XY
  | YZ
  | ZX
  | XZ
  | YX
  | ZY
  | Custom (x_dir normal_dir : Vec3)

/-- Plane::transform.  The Custom arm of the source match is an unfinished
todo!() which panics, modelled as none. -/
noncomputable def Plane.transform : Plane → Option TandR
  | Plane.XY => some TandR.noop
  | Plane.YZ => TandR.from_rotation_between BASE_NORMAL X_NORMAL
  | Plane.ZX => TandR.from_rotation_between BASE_NORMAL Y_NORMAL
  | Plane.YX => TandR.from_rotation_between BASE_NORMAL (-BASE_NORMAL)
  | Plane.ZY => TandR.from_rotation_between BASE_NORMAL (-X_NORMAL)
  | Plane.XZ => TandR.from_rotation_between BASE_NORMAL (-Y_NORMAL)
  | Plane.Custom _ _ => none

/-- Modelled from the spec: the external geometry backend's Edge primitive
(crates/opencascade/src/primitives, not under src/).  Only the constructors
the workplane/sketch layer calls are modelled: a line segment between two
world points, a three-point arc, and a circle from center, normal and
radius. -/
inductive Edge where
  | segment (p q : Vec3)
  | arc (p1 p2 p3 : Vec3)
  | circle (center : Vec3) (normal : Vec3) (radius : ℝ)

/-- Modelled from the spec: Edge::start_point as reported by the backend -
the first construction point of a segment or arc. -/
def Edge.start_point : Edge → Vec3
  | Edge.segment p _ => p
  | Edge.arc p _ _ => p
  | Edge.circle c _ _ => c

/-- Modelled from the spec: the end point of a segment or arc. -/
def Edge.end_point : Edge → Vec3
  | Edge.segment _ q => q
  | Edge.arc _ _ q => q
  | Edge.circle c _ _ => c

/-- Modelled from the spec: a Wire is an ordered sequence of edges as handed
to the backend's Wire::from_edges. -/
structure Wire where
  edges : List Edge

/-- Modelled from the spec: Wire::from_edges keeps the edges in order. -/
def Wire.from_edges (edges : List Edge) : Wire := ⟨edges⟩

/-- Workplane: wraps one TandR. -/
structure Workplane where
  transform : TandR

/-- Workplane::new goes through Plane::Custom, whose transform is the
unfinished todo!() arm (modelled as none, propagating the panic). -/
noncomputable def Workplane.new (x_dir normal_dir : Vec3) : Option Workplane :=
  (Plane.Custom x_dir normal_dir).transform.map Workplane.mk

/-- Workplane::xy(). -/
noncomputable def Workplane.xy : Option Workplane :=
  Plane.XY.transform.map Workplane.mk

/-- Workplane::yz(). -/
noncomputable def Workplane.yz : Option Workplane :=
  Plane.YZ.transform.map Workplane.mk

/-- Workplane::origin(). -/
def Workplane.origin (self : Workplane) : Vec3 := self.transform.translation

/-- Workplane::set_translation. -/
def Workplane.set_translation (self : Workplane) (pos : Vec3) : Workplane :=
  ⟨{ self.transform with translation := pos }⟩

/-- Workplane::translate_by: add the offset directly to the stored
translation. -/
def Workplane.translate_by (self : Workplane) (offset : Vec3) : Workplane :=
  ⟨{ self.transform with translation := self.transform.translation + offset }⟩

/-- Workplane::to_world_pos. -/
def Workplane.to_world_pos (self : Workplane) (pos : Vec3) : Vec3 :=
  self.transform.transform_point pos

/-- Workplane::to_local_pos. -/
def Workplane.to_local_pos (self : Workplane) (pos : Vec3) : Vec3 :=
  self.transform.inverse'.transform_point pos

/-- Workplane::translated: re-anchor the origin at the world position of
the offset expressed in the current local frame. -/
def Workplane.translated (self : Workplane) (offset : Vec3) : Workplane :=
  ⟨{ self.transform with translation := self.to_world_pos offset }⟩

/-- Workplane::rect: four corner points in local coordinates, converted to
world space, joined as top, right, bottom, left segments. -/
noncomputable def Workplane.rect (self : Workplane) (width height : ℝ) : Wire :=
  let half_width := width / 2
  let half_height := height / 2
  let p1 := self.to_world_pos ⟨-half_width, half_height, 0⟩
  let p2 := self.to_world_pos ⟨half_width, half_height, 0⟩
  let p3 := self.to_world_pos ⟨half_width, -half_height, 0⟩
  let p4 := self.to_world_pos ⟨-half_width, -half_height, 0⟩
  let top := Edge.segment p1 p2
  let right := Edge.segment p2 p3
  let bottom := Edge.segment p3 p4
  let left := Edge.segment p4 p1
  Wire.from_edges [top, right, bottom, left]

/-- Sketch: cursor-based edge builder bound to one Workplane. -/
structure Sketch where
  first_point : Option Vec3
  cursor : Vec3
  workplane : Workplane
  edges : List Edge

/-- Sketch::new. -/
def Sketch.new (cursor : Vec3) (workplane : Workplane) : Sketch :=
  ⟨none, cursor, workplane, []⟩

/-- Workplane::sketch: cursor starts at the workplane's world origin. -/
def Workplane.sketch (self : Workplane) : Sketch :=
  Sketch.new (self.to_world_pos Vec3.zero) self

/-- Sketch::add_edge: latch first_point on the first edge, push the edge. -/
def Sketch.add_edge (self : Sketch) (edge : Edge) : Sketch :=
  { self with
    first_point :=
      match self.first_point with
      | none => some edge.start_point
      | some p => some p
    edges := self.edges ++ [edge] }

/-- Sketch::move_to: relocate the cursor, add no edge. -/
def Sketch.move_to (self : Sketch) (x y : ℝ) : Sketch :=
  { self with cursor := self.workplane.to_world_pos ⟨x, y, 0⟩ }

/-- Sketch::line_to. -/
def Sketch.line_to (self : Sketch) (x y : ℝ) : Sketch :=
  let new_point := self.workplane.to_world_pos ⟨x, y, 0⟩
  let new_edge := Edge.segment self.cursor new_point
  ({ self with cursor := new_point }).add_edge new_edge

/-- Sketch::line_dx: offset in local coordinates relative to the cursor's
local position. -/
def Sketch.line_dx (self : Sketch) (dx : ℝ) : Sketch :=
  let cursor := self.workplane.to_local_pos self.cursor
  let new_point := self.workplane.to_world_pos ⟨cursor.x + dx, cursor.y, 0⟩
  let new_edge := Edge.segment self.cursor new_point
  ({ self with cursor := new_point }).add_edge new_edge

/-- Sketch::line_dy. -/
def Sketch.line_dy (self : Sketch) (dy : ℝ) : Sketch :=
  let cursor := self.workplane.to_local_pos self.cursor
  let new_point := self.workplane.to_world_pos ⟨cursor.x, cursor.y + dy, 0⟩
  let new_edge := Edge.segment self.cursor new_point
  ({ self with cursor := new_point }).add_edge new_edge

/-- Sketch::line_dx_dy. -/
def Sketch.line_dx_dy (self : Sketch) (dx dy : ℝ) : Sketch :=
  let cursor := self.workplane.to_local_pos self.cursor
  let new_point := self.workplane.to_world_pos ⟨cursor.x + dx, cursor.y + dy, 0⟩
  let new_edge := Edge.segment self.cursor new_point
  ({ self with cursor := new_point }).add_edge new_edge

/-- Sketch::arc: a three-point arc through the world images of the three
local points; the cursor advances to the third. -/
def Sketch.arc (self : Sketch) (p1 p2 p3 : ℝ × ℝ) : Sketch :=
  let q1 := self.workplane.to_world_pos ⟨p1.1, p1.2, 0⟩
  let q2 := self.workplane.to_world_pos ⟨p2.1, p2.2, 0⟩
  let q3 := self.workplane.to_world_pos ⟨p3.1, p3.2, 0⟩
  let new_arc := Edge.arc q1 q2 q3
  ({ self with cursor := q3 }).add_edge new_arc

/-- Sketch::three_point_arc: an arc starting at the cursor's local
position. -/
def Sketch.three_point_arc (self : Sketch) (p2 p3 : ℝ × ℝ) : Sketch :=
  let cursor := self.workplane.to_local_pos self.cursor
  self.arc (cursor.x, cursor.y) p2 p3

/-- Sketch::wire: assemble the accumulated edges, in order. -/
def Sketch.wire (self : Sketch) : Wire := Wire.from_edges self.edges

/-- Sketch::close: the source unwraps first_point (panicking when it is
absent, modelled as none) and appends a closing segment from the cursor
back to it. -/
def Sketch.close (self : Sketch) : Option Wire :=
  match self.first_point with
  | none => none
  | some start_point =>
      some (Wire.from_edges
        ((self.add_edge (Edge.segment self.cursor start_point)).edges))

/-- Contiguity of an edge list: each edge's end point is the next edge's
start point. -/
def Contiguous (edges : List Edge) : Prop :=
  List.Chain' (fun e f => e.end_point = f.start_point) edges

/-- The drawing commands of the sketch builder that start at the cursor
(the arc form used here is three_point_arc, whose arc begins at the
cursor). -/
inductive Cmd where
  | line_to (x y : ℝ)
  | line_dx (dx : ℝ)
  | line_dy (dy : ℝ)
  | line_dx_dy (dx dy : ℝ)
  | three_point_arc (p2 p3 : ℝ × ℝ)

/-- Run one drawing command on a sketch. -/
def Sketch.apply (self : Sketch) : Cmd → Sketch
  | Cmd.line_to x y => self.line_to x y
  | Cmd.line_dx dx => self.line_dx dx
  | Cmd.line_dy dy => self.line_dy dy
  | Cmd.line_dx_dy dx dy => self.line_dx_dy dx dy
  | Cmd.three_point_arc p2 p3 => self.three_point_arc p2 p3

/-- Run a sequence of drawing commands, left to right. -/
def Sketch.run (self : Sketch) (cmds : List Cmd) : Sketch :=
  cmds.foldl Sketch.apply self

/-- Invariant threaded through the sketch builder: the workplane rotation
is unit, the edges are contiguous, the cursor sits at the end of the last
edge, and the cursor lies in the workplane (local z coordinate zero). -/
def SketchInv (s : Sketch) : Prop :=
  s.workplane.transform.rotation_quat.normSq = 1 ∧
  Contiguous s.edges ∧
  (∀ e, s.edges.getLast? = some e → e.end_point = s.cursor) ∧
  (s.workplane.to_local_pos s.cursor).z = 0

/-- Unfolding lemma for vector addition. -/
@[simp]
theorem Vec3.add_def (a b : Vec3) : a + b = ⟨a.x + b.x, a.y + b.y, a.z + b.z⟩ := rfl

/-- Unfolding lemma for vector negation. -/
@[simp]
theorem Vec3.neg_def (a : Vec3) : -a = ⟨-a.x, -a.y, -a.z⟩ := rfl

/-- Unfolding lemma for scalar multiplication. -/
@[simp]
theorem Vec3.smul_def (r : ℝ) (a : Vec3) : r • a = ⟨r * a.x, r * a.y, r * a.z⟩ := rfl

/-- Unfolding lemma for the zero vector. -/
@[simp]
theorem Vec3.zero_def : (0 : Vec3) = ⟨0, 0, 0⟩ := rfl

/-- Quaternion multiplication is associative. -/
theorem Quat.mul_assoc' (p q r : Quat) : (p.mul q).mul r = p.mul (q.mul r) := by
  cases p
  cases q
  cases r
  simp only [Quat.mul, Quat.mk.injEq]
  refine ⟨by ring, by ring, by ring, by ring⟩

/-- The identity quaternion is a left unit. -/
theorem Quat.id_mul (q : Quat) : Quat.id.mul q = q := by
  cases q
  simp only [Quat.mul, Quat.id, Quat.mk.injEq]
  refine ⟨by ring, by ring, by ring, by ring⟩

/-- The identity quaternion is a right unit. -/
theorem Quat.mul_id (q : Quat) : q.mul Quat.id = q := by
  cases q
  simp only [Quat.mul, Quat.id, Quat.mk.injEq]
  refine ⟨by ring, by ring, by ring, by ring⟩

/-- Conjugation is an involution. -/
theorem Quat.conj_conj (q : Quat) : q.conj.conj = q := by
  cases q
  simp [Quat.conj]

/-- Conjugation is an antihomomorphism for the Hamilton product. -/
theorem Quat.conj_mul' (p q : Quat) : (p.mul q).conj = q.conj.mul p.conj := by
  cases p
  cases q
  simp only [Quat.mul, Quat.conj, Quat.mk.injEq]
  refine ⟨by ring, by ring, by ring, by ring⟩

/-- Conjugation preserves the squared norm. -/
theorem Quat.normSq_conj (q : Quat) : q.conj.normSq = q.normSq := by
  cases q
  simp only [Quat.conj, Quat.normSq]
  ring

/-- The squared norm is multiplicative (Euler four-square identity). -/
theorem Quat.normSq_mul (p q : Quat) : (p.mul q).normSq = p.normSq * q.normSq := by
  cases p
  cases q
  simp only [Quat.mul, Quat.normSq]
  ring

/-- The vector part of a pure quaternion. -/
theorem Quat.vec_pure (v : Vec3) : (Quat.pure v).vec = v := rfl

/-- A quaternion with zero scalar part is the pure quaternion of its vector
part. -/
theorem Quat.pure_vec (p : Quat) (h : p.w = 0) : Quat.pure p.vec = p := by
  cases p
  simp only [Quat.pure, Quat.vec, Quat.mk.injEq]
  simp_all

/-- The sandwich q v q* of a pure quaternion has zero scalar part. -/
theorem Quat.sandwich_w (q : Quat) (v : Vec3) :
    ((q.mul (Quat.pure v)).mul q.conj).w = 0 := by
  cases q
  cases v
  simp only [Quat.mul, Quat.pure, Quat.conj]
  ring

/-- For a unit quaternion, q* q = 1. -/
theorem Quat.conj_mul_self (q : Quat) (hq : q.normSq = 1) : q.conj.mul q = Quat.id := by
  cases q
  simp only [Quat.normSq] at hq
  simp only [Quat.conj, Quat.mul, Quat.id, Quat.mk.injEq]
  refine ⟨by linear_combination hq, by ring, by ring, by ring⟩

/-- For a unit quaternion, nalgebra's rotation formula is the quaternion
sandwich q v q*. -/
theorem Quat.rotate_eq_sandwich (q : Quat) (hq : q.normSq = 1) (v : Vec3) :
    q.rotate v = ((q.mul (Quat.pure v)).mul q.conj).vec := by
  cases q with
  | mk w x y z =>
  cases v with
  | mk a b c =>
  simp only [Quat.normSq] at hq
  simp only [Quat.rotate, Quat.vec, Quat.mul, Quat.pure, Quat.conj, Vec3.cross,
    Vec3.smul_def, Vec3.add_def, Vec3.mk.injEq]
  refine ⟨?_, ?_, ?_⟩
  · linear_combination (-a) * hq
  · linear_combination (-b) * hq
  · linear_combination (-c) * hq

/-- Rotating by a unit quaternion and then by its conjugate is the
identity. -/
theorem Quat.rotate_conj_rotate (q : Quat) (hq : q.normSq = 1) (v : Vec3) :
    q.conj.rotate (q.rotate v) = v := by
  have hc : q.conj.normSq = 1 := by rw [Quat.normSq_conj, hq]
  rw [Quat.rotate_eq_sandwich q hq v, Quat.rotate_eq_sandwich q.conj hc,
    Quat.pure_vec _ (Quat.sandwich_w q v), Quat.conj_conj]
  have key : (q.conj.mul ((q.mul (Quat.pure v)).mul q.conj)).mul q = Quat.pure v := by
    rw [Quat.mul_assoc' q (Quat.pure v) q.conj,
      ← Quat.mul_assoc' q.conj q ((Quat.pure v).mul q.conj),
      Quat.conj_mul_self q hq, Quat.id_mul, Quat.mul_assoc',
      Quat.conj_mul_self q hq, Quat.mul_id]
  rw [key, Quat.vec_pure]

/-- Rotation by a product of unit quaternions is the composition of the
rotations. -/
theorem Quat.rotate_mul (q1 q2 : Quat) (h1 : q1.normSq = 1) (h2 : q2.normSq = 1)
    (v : Vec3) : (q1.mul q2).rotate v = q1.rotate (q2.rotate v) := by
  have h12 : (q1.mul q2).normSq = 1 := by rw [Quat.normSq_mul, h1, h2, one_mul]
  rw [Quat.rotate_eq_sandwich _ h12, Quat.rotate_eq_sandwich q2 h2,
    Quat.rotate_eq_sandwich q1 h1, Quat.pure_vec _ (Quat.sandwich_w q2 v),
    Quat.conj_mul']
  congr 1
  simp only [Quat.mul_assoc']

/-- Rotation distributes over vector addition. -/
theorem Quat.rotate_add (q : Quat) (a b : Vec3) :
    q.rotate (a + b) = q.rotate a + q.rotate b := by
  cases q
  cases a
  cases b
  simp only [Quat.rotate, Quat.vec, Vec3.cross, Vec3.smul_def, Vec3.add_def,
    Vec3.mk.injEq]
  refine ⟨by ring, by ring, by ring⟩

/-- Adding and then subtracting a vector cancels. -/
theorem Vec3.add_neg_cancel_right' (a b : Vec3) : a + b + -b = a := by
  cases a
  cases b
  simp only [Vec3.add_def, Vec3.neg_def, Vec3.mk.injEq]
  refine ⟨by ring, by ring, by ring⟩

/-- Reassociation helper for vector sums. -/
theorem Vec3.add_shuffle (a b c : Vec3) : a + (b + c) = a + c + b := by
  cases a
  cases b
  cases c
  simp only [Vec3.add_def, Vec3.mk.injEq]
  refine ⟨by ring, by ring, by ring⟩

/-- transform_point on a transform with a cleared inverse flag. -/
@[simp]
theorem TandR.transform_point_false (t : Vec3) (q : Quat) (p : Vec3) :
    TandR.transform_point ⟨t, q, false⟩ p = q.rotate p + t := rfl

/-- transform_point on a transform with a set inverse flag. -/
@[simp]
theorem TandR.transform_point_true (t : Vec3) (q : Quat) (p : Vec3) :
    TandR.transform_point ⟨t, q, true⟩ p = q.rotate (p + t) := rfl

/-- Unfolding lemma for the inverse method. -/
@[simp]
theorem TandR.inverse'_mk (t : Vec3) (q : Quat) (flag : Bool) :
    TandR.inverse' ⟨t, q, flag⟩ = ⟨-t, q.conj, !flag⟩ := rfl

/-- The central round-trip contract: for a unit rotation quaternion,
transform_point of the inverse undoes transform_point, for either value of
the inverse flag. -/
theorem TandR.round_trip (T : TandR) (hq : T.rotation_quat.normSq = 1) (p : Vec3) :
    T.inverse'.transform_point (T.transform_point p) = p := by
  obtain ⟨t, q, flag⟩ := T
  cases flag
  · simp only [TandR.inverse'_mk, Bool.not_false, TandR.transform_point_false,
      TandR.transform_point_true]
    rw [Vec3.add_neg_cancel_right']
    exact Quat.rotate_conj_rotate q hq p
  · simp only [TandR.inverse'_mk, Bool.not_true, TandR.transform_point_true,
      TandR.transform_point_false]
    rw [Quat.rotate_conj_rotate q hq]
    exact Vec3.add_neg_cancel_right' p t

/-- Inversion of a TandR is an involution, field for field. -/
theorem TandR.inverse'_involution (T : TandR) : T.inverse'.inverse' = T := by
  obtain ⟨t, q, flag⟩ := T
  cases t
  simp [TandR.inverse', Quat.conj_conj]

/-- The inverse round trip in the other direction. -/
theorem TandR.round_trip' (T : TandR) (hq : T.rotation_quat.normSq = 1) (p : Vec3) :
    T.transform_point (T.inverse'.transform_point p) = p := by
  have hc : T.inverse'.rotation_quat.normSq = 1 := by
    obtain ⟨t, q, flag⟩ := T
    simpa [TandR.inverse', Quat.normSq_conj] using hq
  have h := TandR.round_trip T.inverse' hc p
  rwa [TandR.inverse'_involution] at h

/-- to_local_pos undoes to_world_pos for a workplane with unit rotation. -/
theorem Workplane.local_world (w : Workplane)
    (hq : w.transform.rotation_quat.normSq = 1) (p : Vec3) :
    w.to_local_pos (w.to_world_pos p) = p :=
  TandR.round_trip w.transform hq p

/-- to_world_pos undoes to_local_pos for a workplane with unit rotation. -/
theorem Workplane.world_local (w : Workplane)
    (hq : w.transform.rotation_quat.normSq = 1) (p : Vec3) :
    w.to_world_pos (w.to_local_pos p) = p :=
  TandR.round_trip' w.transform hq p

/-- C1: for every TandR transform T (any translation, any unit rotation
quaternion, either value of the inverse flag) and every 3D point p,
T.inverse().transform_point(T.transform_point(p)) equals p (exactly, in
the real-number idealisation of f64, hence within the 1e-9 tolerance);
consequently for every Workplane w (its stored rotation being unit) and
point p, w.to_local_pos(w.to_world_pos(p)) equals p. -/
theorem C1_round_trip :
    (∀ T : TandR, T.rotation_quat.normSq = 1 →
      ∀ p : Vec3, T.inverse'.transform_point (T.transform_point p) = p) ∧
    (∀ w : Workplane, w.transform.rotation_quat.normSq = 1 →
      ∀ p : Vec3, w.to_local_pos (w.to_world_pos p) = p) :=
  ⟨TandR.round_trip, Workplane.local_world⟩

/-- Witness for C1 at a concrete transform and point. -/
theorem C1_round_trip_witness :
    Quat.normSq ⟨3 / 5, 0, 0, 4 / 5⟩ = 1 ∧
    TandR.transform_point
        (TandR.inverse' ⟨⟨1, 2, 3⟩, ⟨3 / 5, 0, 0, 4 / 5⟩, false⟩)
        (TandR.transform_point ⟨⟨1, 2, 3⟩, ⟨3 / 5, 0, 0, 4 / 5⟩, false⟩ ⟨4, 5, 6⟩) =
      ⟨4, 5, 6⟩ := by
  have hq : Quat.normSq ⟨3 / 5, 0, 0, 4 / 5⟩ = 1 := by
    norm_num [Quat.normSq]
  exact ⟨hq, C1_round_trip.1 ⟨⟨1, 2, 3⟩, ⟨3 / 5, 0, 0, 4 / 5⟩, false⟩ hq ⟨4, 5, 6⟩⟩

/-- C10: inversion is an involution: for every TandR transform T (any
translation, rotation quaternion and inverse flag),
T.inverse().inverse() equals T field for field. -/
theorem C10_inverse_involution : ∀ T : TandR, T.inverse'.inverse' = T :=
  TandR.inverse'_involution

/-- C8: for all TandR transforms self and other with inverse flags false
and unit rotation quaternions (the invariant of the stored UnitQuaternion
type), self.transform_tandr(other) has rotation self.rotation * other.rotation
and translation self.translation + self.rotation applied to
other.translation, and transforming any point by the composite equals
self.transform_point(other.transform_point(p)). -/
theorem C8_transform_tandr (T1 T2 : TandR)
    (h1 : T1.inverse = false) (h2 : T2.inverse = false)
    (hq1 : T1.rotation_quat.normSq = 1) (hq2 : T2.rotation_quat.normSq = 1) :
    (T1.transform_tandr T2).rotation_quat = T1.rotation_quat.mul T2.rotation_quat ∧
    (T1.transform_tandr T2).translation =
      T1.translation + T1.rotation_quat.rotate T2.translation ∧
    ∀ p : Vec3, (T1.transform_tandr T2).transform_point p =
      T1.transform_point (T2.transform_point p) := by
  obtain ⟨t1, q1, f1⟩ := T1
  obtain ⟨t2, q2, f2⟩ := T2
  subst h1
  subst h2
  refine ⟨rfl, rfl, fun p => ?_⟩
  simp only [TandR.transform_tandr, TandR.transform_point_false]
  rw [Quat.rotate_mul q1 q2 hq1 hq2, Quat.rotate_add]
  exact Vec3.add_shuffle (q1.rotate (q2.rotate p)) t1 (q1.rotate t2)

/-- Witness for C8 at concrete transforms and a concrete point. -/
theorem C8_transform_tandr_witness :
    (TandR.mk ⟨1, 2, 3⟩ ⟨3 / 5, 0, 0, 4 / 5⟩ false).inverse = false ∧
    (TandR.mk ⟨4, 0, 1⟩ ⟨3 / 5, 4 / 5, 0, 0⟩ false).inverse = false ∧
    Quat.normSq ⟨3 / 5, 0, 0, 4 / 5⟩ = 1 ∧
    Quat.normSq ⟨3 / 5, 4 / 5, 0, 0⟩ = 1 ∧
    ((TandR.mk ⟨1, 2, 3⟩ ⟨3 / 5, 0, 0, 4 / 5⟩ false).transform_tandr
        (TandR.mk ⟨4, 0, 1⟩ ⟨3 / 5, 4 / 5, 0, 0⟩ false)).transform_point ⟨7, 8, 9⟩ =
      (TandR.mk ⟨1, 2, 3⟩ ⟨3 / 5, 0, 0, 4 / 5⟩ false).transform_point
        ((TandR.mk ⟨4, 0, 1⟩ ⟨3 / 5, 4 / 5, 0, 0⟩ false).transform_point ⟨7, 8, 9⟩) := by
  have hq1 : Quat.normSq ⟨3 / 5, 0, 0, 4 / 5⟩ = 1 := by norm_num [Quat.normSq]
  have hq2 : Quat.normSq ⟨3 / 5, 4 / 5, 0, 0⟩ = 1 := by norm_num [Quat.normSq]
  exact ⟨rfl, rfl, hq1, hq2,
    (C8_transform_tandr _ _ rfl rfl hq1 hq2).2.2 ⟨7, 8, 9⟩⟩

/-- C9: translate_by adds the offset directly to the stored translation and
leaves the rotation unchanged; translated re-anchors the origin at
to_world_pos(offset) with the rotation unchanged; and whenever the
workplane's rotation is not the identity map (it moves some vector), the
two operations produce different origins for some offset. -/
theorem C9_translate_by_vs_translated (w : Workplane) (v : Vec3) :
    (w.translate_by v).transform.translation = w.transform.translation + v ∧
    (w.translate_by v).transform.rotation_quat = w.transform.rotation_quat ∧
    (w.translated v).origin = w.to_world_pos v ∧
    (w.translated v).transform.rotation_quat = w.transform.rotation_quat ∧
    ((∃ u : Vec3, w.transform.rotation_quat.rotate u ≠ u) →
      ∃ v2 : Vec3, (w.translate_by v2).origin ≠ (w.translated v2).origin) := by
  refine ⟨rfl, rfl, rfl, rfl, ?_⟩
  obtain ⟨⟨t, q, flag⟩⟩ := w
  rintro ⟨u, hu⟩
  cases flag
  · refine ⟨u, fun h => hu ?_⟩
    have h' : t + u = q.rotate u + t := h
    have hx := congrArg Vec3.x h'
    have hy := congrArg Vec3.y h'
    have hz := congrArg Vec3.z h'
    simp only [Vec3.add_def] at hx hy hz
    ext
    · linarith
    · linarith
    · linarith
  · refine ⟨u + -t, fun h => hu ?_⟩
    have h' : t + (u + -t) = q.rotate (u + -t + t) := h
    have hcan : u + -t + t = u := by
      cases u
      cases t
      simp only [Vec3.add_def, Vec3.neg_def, Vec3.mk.injEq]
      refine ⟨by ring, by ring, by ring⟩
    rw [hcan] at h'
    have h'' : t + (u + -t) = u := by
      cases u
      cases t
      simp only [Vec3.add_def, Vec3.neg_def, Vec3.mk.injEq]
      refine ⟨by ring, by ring, by ring⟩
    rw [h''] at h'
    exact h'.symm

/-- Witness for C9 at a concrete workplane (rotation about z) and offset. -/
theorem C9_translate_by_vs_translated_witness :
    (∃ u : Vec3, Quat.rotate ⟨3 / 5, 0, 0, 4 / 5⟩ u ≠ u) ∧
    (∃ v2 : Vec3,
      ((Workplane.mk ⟨⟨0, 0, 0⟩, ⟨3 / 5, 0, 0, 4 / 5⟩, false⟩).translate_by v2).origin ≠
        ((Workplane.mk ⟨⟨0, 0, 0⟩, ⟨3 / 5, 0, 0, 4 / 5⟩, false⟩).translated v2).origin) := by
  have hex : ∃ u : Vec3, Quat.rotate ⟨3 / 5, 0, 0, 4 / 5⟩ u ≠ u := by
    refine ⟨⟨1, 0, 0⟩, fun h => ?_⟩
    have hx := congrArg Vec3.x h
    simp only [Quat.rotate, Quat.vec, Vec3.cross, Vec3.smul_def, Vec3.add_def] at hx
    norm_num at hx
  exact ⟨hex,
    (C9_translate_by_vs_translated
      (Workplane.mk ⟨⟨0, 0, 0⟩, ⟨3 / 5, 0, 0, 4 / 5⟩, false⟩) ⟨1, 1, 1⟩).2.2.2.2 hex⟩

/-- Evaluation of rotation_between on the perpendicular pair Z, X. -/
theorem rotation_between_Z_X :
    rotation_between Z_NORMAL X_NORMAL = some (Quat.unitize ⟨1, 0, 1, 0⟩) := by
  simp only [rotation_between, Z_NORMAL, X_NORMAL, Vec3.cross, Vec3.dot]
  norm_num

/-- The cached intermediate rotation, evaluated. -/
theorem INTER_QUAT_val :
    INTER_QUAT = ⟨(Real.sqrt 2)⁻¹, 0, (Real.sqrt 2)⁻¹, 0⟩ := by
  rw [INTER_QUAT, rotation_between_Z_X]
  simp only [Option.getD_some, Quat.unitize, Quat.normSq, Quat.smul]
  norm_num

/-- rotation_between is degenerate (None) on the antiparallel pair
Y, -Y. -/
theorem rotation_between_Y_negY : rotation_between Y_NORMAL (-Y_NORMAL) = none := by
  simp only [rotation_between, Y_NORMAL, Vec3.neg_def, Vec3.cross, Vec3.dot]
  norm_num

/-- The intermediate rotation fixes Y (its rotation axis). -/
theorem INTER_QUAT_rotate_Y : INTER_QUAT.rotate Y_NORMAL = Y_NORMAL := by
  rw [INTER_QUAT_val]
  simp only [Quat.rotate, Quat.vec, Vec3.cross, Y_NORMAL, Vec3.smul_def, Vec3.add_def]
  norm_num

/-- C2 (code bug): TandR::from_rotation_between is claimed total over all
unit-vector pairs including exact antiparallels, but for a = (0,1,0),
b = (0,-1,0) the antiparallel fallback rotates a by INTER_QUAT - whose
rotation axis is Y, so a is left fixed - and the second rotation_between
is again degenerate; the source then panics on .unwrap() (modelled as
none). -/
theorem C2_from_rotation_between_panics :
    TandR.from_rotation_between Y_NORMAL (-Y_NORMAL) = none := by
  simp only [TandR.from_rotation_between, rotation_between_Y_negY,
    INTER_QUAT_rotate_Y]

/-- C3 (code bug): Sketch::close on a sketch with no edges (fresh, or only
move_to calls) reaches self.first_point.unwrap() with first_point None and
panics (modelled as none) instead of reporting an error value. -/
theorem C3_close_no_edges :
    Workplane.xy.map (fun w => w.sketch.close) = some none ∧
    Workplane.xy.map (fun w => ((w.sketch.move_to 3 4).close)) = some none :=
  ⟨rfl, rfl⟩

/-- C4 (code bug): the Custom arm of Plane::transform is an unimplemented
todo!() which panics for every input (modelled as none), so neither
Plane::Custom{..}.transform() nor Workplane::new returns the frame built
from the supplied directions. -/
theorem C4_custom_is_todo (x_dir normal_dir : Vec3) :
    Plane.transform (Plane.Custom x_dir normal_dir) = none ∧
    Workplane.new x_dir normal_dir = none :=
  ⟨rfl, rfl⟩

/-- The rotation produced for the YZ plane maps the base normal Z onto X. -/
theorem unitize_ZX_rotate : (Quat.unitize ⟨1, 0, 1, 0⟩).rotate Z_NORMAL = X_NORMAL := by
  have hs : Real.sqrt 2 * Real.sqrt 2 = 2 := Real.mul_self_sqrt (by norm_num)
  have hinv : (Real.sqrt 2)⁻¹ * (Real.sqrt 2)⁻¹ = 1 / 2 := by
    rw [← mul_inv, hs]
    norm_num
  simp only [Quat.unitize, Quat.normSq, Quat.smul, Quat.rotate, Quat.vec,
    Vec3.cross, Vec3.smul_def, Vec3.add_def, Z_NORMAL, X_NORMAL]
  norm_num
  constructor
  · linear_combination 2 * hinv
  · linear_combination (-2 : ℝ) * hinv

/-- C7: Plane::XY.transform() is the identity transform (zero translation,
identity rotation, inverse flag false), and Plane::YZ.transform() has zero
translation and a rotation mapping the base normal Z = (0,0,1) onto the
canonical x-axis (1,0,0). -/
theorem C7_plane_canonical :
    Plane.XY.transform = some TandR.noop ∧
    TandR.noop.translation = Vec3.zero ∧
    TandR.noop.rotation_quat = Quat.id ∧
    TandR.noop.inverse = false ∧
    ∃ T : TandR, Plane.YZ.transform = some T ∧ T.translation = Vec3.zero ∧
      T.rotation_quat.rotate Z_NORMAL = X_NORMAL := by
  refine ⟨rfl, rfl, rfl, rfl,
    ⟨Vec3.zero, Quat.unitize ⟨1, 0, 1, 0⟩, false⟩, ?_, rfl, unitize_ZX_rotate⟩
  show TandR.from_rotation_between BASE_NORMAL X_NORMAL = _
  simp only [TandR.from_rotation_between, BASE_NORMAL, rotation_between_Z_X]

/-- C6: Workplane::xy().rect(10.0, 4.0) produces a wire of exactly four
segment edges whose corner world points are (-5,2,0), (5,2,0), (5,-2,0),
(-5,-2,0) connected in that order (top, right, bottom, left); the edge
list is contiguous and the last edge ends where the first starts, so the
wire is closed. -/
theorem C6_rect_scenario :
    Workplane.xy.map (fun w => w.rect 10 4) =
      some (Wire.from_edges
        [Edge.segment ⟨-5, 2, 0⟩ ⟨5, 2, 0⟩,
         Edge.segment ⟨5, 2, 0⟩ ⟨5, -2, 0⟩,
         Edge.segment ⟨5, -2, 0⟩ ⟨-5, -2, 0⟩,
         Edge.segment ⟨-5, -2, 0⟩ ⟨-5, 2, 0⟩]) ∧
    Contiguous
      [Edge.segment ⟨-5, 2, 0⟩ ⟨5, 2, 0⟩,
       Edge.segment ⟨5, 2, 0⟩ ⟨5, -2, 0⟩,
       Edge.segment ⟨5, -2, 0⟩ ⟨-5, -2, 0⟩,
       Edge.segment ⟨-5, -2, 0⟩ ⟨-5, 2, 0⟩] ∧
    (Edge.segment (⟨-5, -2, 0⟩ : Vec3) ⟨-5, 2, 0⟩).end_point =
      (Edge.segment (⟨-5, 2, 0⟩ : Vec3) ⟨5, 2, 0⟩).start_point := by
  refine ⟨?_, ?_, rfl⟩
  · show some ((Workplane.mk TandR.noop).rect 10 4) = _
    have hr : (Workplane.mk TandR.noop).rect 10 4 =
        Wire.from_edges
          [Edge.segment ⟨-5, 2, 0⟩ ⟨5, 2, 0⟩,
           Edge.segment ⟨5, 2, 0⟩ ⟨5, -2, 0⟩,
           Edge.segment ⟨5, -2, 0⟩ ⟨-5, -2, 0⟩,
           Edge.segment ⟨-5, -2, 0⟩ ⟨-5, 2, 0⟩] := by
      simp only [Workplane.rect, Workplane.to_world_pos, TandR.noop,
        TandR.transform_point_false, Quat.rotate, Quat.id, Quat.vec, Vec3.cross,
        Vec3.zero, Vec3.smul_def, Vec3.add_def, Wire.from_edges, Wire.mk.injEq,
        List.cons.injEq, Edge.segment.injEq, Vec3.mk.injEq, and_true, List.nil_eq]
      norm_num
    rw [hr]
  · simp only [Contiguous, List.chain'_cons, List.chain'_singleton,
      Edge.end_point, Edge.start_point, and_true]

/-- Appending one edge keeps contiguity when it continues the last edge. -/
theorem contiguous_concat (es : List Edge) (e : Edge) (hc : Contiguous es)
    (hlast : ∀ f, es.getLast? = some f → f.end_point = e.start_point) :
    Contiguous (es ++ [e]) := by
  rw [Contiguous, List.chain'_append]
  refine ⟨hc, List.chain'_singleton e, ?_⟩
  intro f hf g hg
  simp only [List.head?_cons, Option.mem_def, Option.some.injEq] at hg
  subst hg
  exact hlast f (Option.mem_def.mp hf)

/-- A segment drawn from the cursor to the world image of a local point
preserves the sketch invariant (common body of line_to, line_dx, line_dy
and line_dx_dy). -/
theorem SketchInv.segment_step (s : Sketch) (h : SketchInv s) (a b : ℝ) :
    SketchInv (({ s with cursor := s.workplane.to_world_pos ⟨a, b, 0⟩ }).add_edge
      (Edge.segment s.cursor (s.workplane.to_world_pos ⟨a, b, 0⟩))) := by
  obtain ⟨hq, hc, hlast, hz⟩ := h
  refine ⟨hq, ?_, ?_, ?_⟩
  · simp only [Sketch.add_edge]
    apply contiguous_concat _ _ hc
    intro f hf
    exact hlast f hf
  · simp only [Sketch.add_edge]
    intro e he
    rw [List.getLast?_concat] at he
    cases he
    rfl
  · simp only [Sketch.add_edge]
    show (s.workplane.to_local_pos (s.workplane.to_world_pos ⟨a, b, 0⟩)).z = 0
    rw [Workplane.local_world s.workplane hq]

/-- three_point_arc preserves the sketch invariant: its arc starts at the
cursor because the cursor lies in the workplane. -/
theorem SketchInv.three_point_arc_step (s : Sketch) (h : SketchInv s)
    (p2 p3 : ℝ × ℝ) : SketchInv (s.three_point_arc p2 p3) := by
  obtain ⟨hq, hc, hlast, hz⟩ := h
  have hcur : s.workplane.to_world_pos
      ⟨(s.workplane.to_local_pos s.cursor).x,
       (s.workplane.to_local_pos s.cursor).y, 0⟩ = s.cursor := by
    have hl : (⟨(s.workplane.to_local_pos s.cursor).x,
        (s.workplane.to_local_pos s.cursor).y, 0⟩ : Vec3) =
        s.workplane.to_local_pos s.cursor := by
      ext
      · rfl
      · rfl
      · exact hz.symm
    rw [hl, Workplane.world_local _ hq]
  show SketchInv (({ s with
      cursor := s.workplane.to_world_pos ⟨p3.1, p3.2, 0⟩ }).add_edge
    (Edge.arc
      (s.workplane.to_world_pos
        ⟨(s.workplane.to_local_pos s.cursor).x,
         (s.workplane.to_local_pos s.cursor).y, 0⟩)
      (s.workplane.to_world_pos ⟨p2.1, p2.2, 0⟩)
      (s.workplane.to_world_pos ⟨p3.1, p3.2, 0⟩)))
  refine ⟨hq, ?_, ?_, ?_⟩
  · simp only [Sketch.add_edge]
    apply contiguous_concat _ _ hc
    intro f hf
    rw [Edge.start_point, hcur]
    exact hlast f hf
  · simp only [Sketch.add_edge]
    intro e he
    rw [List.getLast?_concat] at he
    cases he
    rfl
  · simp only [Sketch.add_edge]
    show (s.workplane.to_local_pos
      (s.workplane.to_world_pos ⟨p3.1, p3.2, 0⟩)).z = 0
    rw [Workplane.local_world s.workplane hq]

/-- Every drawing command preserves the sketch invariant. -/
theorem SketchInv.apply_step (s : Sketch) (h : SketchInv s) (c : Cmd) :
    SketchInv (s.apply c) := by
  cases c with
  | line_to x y => exact SketchInv.segment_step s h x y
  | line_dx dx =>
      exact SketchInv.segment_step s h
        ((s.workplane.to_local_pos s.cursor).x + dx)
        (s.workplane.to_local_pos s.cursor).y
  | line_dy dy =>
      exact SketchInv.segment_step s h
        (s.workplane.to_local_pos s.cursor).x
        ((s.workplane.to_local_pos s.cursor).y + dy)
  | line_dx_dy dx dy =>
      exact SketchInv.segment_step s h
        ((s.workplane.to_local_pos s.cursor).x + dx)
        ((s.workplane.to_local_pos s.cursor).y + dy)
  | three_point_arc p2 p3 => exact SketchInv.three_point_arc_step s h p2 p3

/-- Running any command sequence preserves the sketch invariant. -/
theorem SketchInv.run_steps (s : Sketch) (h : SketchInv s) (cmds : List Cmd) :
    SketchInv (s.run cmds) := by
  induction cmds generalizing s with
  | nil => exact h
  | cons c cs ih => exact ih (s.apply c) (SketchInv.apply_step s h c)

/-- A fresh sketch of a unit-rotation workplane satisfies the invariant. -/
theorem SketchInv.initial (w : Workplane)
    (hq : w.transform.rotation_quat.normSq = 1) : SketchInv w.sketch := by
  refine ⟨hq, List.chain'_nil, ?_, ?_⟩
  · intro e he
    simp [Workplane.sketch, Sketch.new] at he
  · show (w.to_local_pos (w.to_world_pos Vec3.zero)).z = 0
    rw [Workplane.local_world w hq]
    rfl

/-- C5 counterexample: a raw arc whose first point differs from the cursor
breaks contiguity.  On the XY workplane, line_to(1,0) followed by
arc((5,5),(6,6),(7,5)) yields a second edge starting at (5,5,0) while the
first edge ends at (1,0,0). -/
theorem C5_counterexample_arc :
    ¬ Contiguous ((((Workplane.mk TandR.noop).sketch.line_to 1 0).arc
        (5, 5) (6, 6) (7, 5)).edges) := by
  have hedges : ((((Workplane.mk TandR.noop).sketch.line_to 1 0).arc
      (5, 5) (6, 6) (7, 5)).edges) =
      [Edge.segment ⟨0, 0, 0⟩ ⟨1, 0, 0⟩,
       Edge.arc ⟨5, 5, 0⟩ ⟨6, 6, 0⟩ ⟨7, 5, 0⟩] := by
    simp only [Workplane.sketch, Sketch.new, Sketch.line_to, Sketch.arc,
      Sketch.add_edge, Workplane.to_world_pos, TandR.noop,
      TandR.transform_point_false, Quat.rotate, Quat.id, Quat.vec, Vec3.cross,
      Vec3.zero, Vec3.smul_def, Vec3.add_def, List.nil_append, List.cons_append,
      List.cons.injEq, Edge.segment.injEq, Edge.arc.injEq, Vec3.mk.injEq,
      List.nil_eq, and_true]
    norm_num
  intro h
  rw [hedges] at h
  simp only [Contiguous, List.chain'_cons, List.chain'_singleton, and_true,
    Edge.end_point, Edge.start_point, Vec3.mk.injEq] at h
  exact absurd h.1 (by norm_num)

/-- C5 as amended: for every workplane with a unit rotation quaternion and
every sequence of line_to / line_dx / line_dy / line_dx_dy /
three_point_arc commands (arcs that start at the cursor) issued on a fresh
sketch of that workplane, every edge in the accumulated edges list is
contiguous with its predecessor. -/
theorem C5_contiguity (w : Workplane)
    (hq : w.transform.rotation_quat.normSq = 1) (cmds : List Cmd) :
    Contiguous ((w.sketch.run cmds).edges) :=
  (SketchInv.run_steps w.sketch (SketchInv.initial w hq) cmds).2.1

/-- Witness for the amended C5 on a concrete command sequence. -/
theorem C5_contiguity_witness :
    Quat.normSq (Workplane.mk TandR.noop).transform.rotation_quat = 1 ∧
    Contiguous (((Workplane.mk TandR.noop).sketch.run
      [Cmd.line_to 1 0, Cmd.line_dx 2, Cmd.line_dy 3, Cmd.line_dx_dy 1 1,
       Cmd.three_point_arc (6, 1) (7, 0)]).edges) := by
  have hq : Quat.normSq (Workplane.mk TandR.noop).transform.rotation_quat = 1 := by
    norm_num [TandR.noop, Quat.id, Quat.normSq]
  exact ⟨hq, C5_contiguity (Workplane.mk TandR.noop) hq _⟩
